import Mathlib

/-!
Verification development for the RESUMAX LaTeX section parsing / selective
reassembly engine and its React frontend.

Strings are modelled as `List Char` (the frontend operates on JS strings
character by character; the brace rules of the backend validator are
likewise per character).  JavaScript objects keyed by section key are
modelled as association lists in insertion order, with `lookupKey`
modelling property access.
-/

abbrev Str := List Char

def headerKey : Str := "header".toList

/-- Property lookup on a JS-object modelled as an association list:
the first entry whose key matches wins. -/
def lookupKey (k : Str) : List (Str × α) → Option α
  | [] => none
  | (k', v) :: rest => if k' = k then some v else lookupKey k rest

/-- Property assignment on a JS-object modelled as an association list:
replace the value in place if the key exists, else append. -/
def setKey (k : Str) (v : α) : List (Str × α) → List (Str × α)
  | [] => [(k, v)]
  | (k', v') :: rest => if k' = k then (k, v) :: rest else (k', v') :: setKey k v rest

theorem lookupKey_setKey_self (k : Str) (v : α) (l : List (Str × α)) :
    lookupKey k (setKey k v l) = some v := by
  induction l with
  | nil => simp [setKey, lookupKey]
  | cons e rest ih =>
    obtain ⟨k', v'⟩ := e
    by_cases h : k' = k
    · simp [setKey, lookupKey, h]
    · simp [setKey, lookupKey, h, ih]

theorem lookupKey_mem {k : Str} {v : α} {l : List (Str × α)} :
    lookupKey k l = some v → (k, v) ∈ l := by
  induction l with
  | nil => simp [lookupKey]
  | cons e rest ih =>
    obtain ⟨k', v'⟩ := e
    simp only [lookupKey]
    by_cases h : k' = k
    · rw [if_pos h]
      intro hv
      injection hv with hv
      subst h
      subst hv
      exact List.mem_cons_self _ _
    · rw [if_neg h]
      intro hv
      exact List.mem_cons_of_mem _ (ih hv)

theorem mem_setKey {k : Str} {v : α} {l : List (Str × α)} {e : Str × α} :
    e ∈ setKey k v l → e = (k, v) ∨ e ∈ l := by
  induction l with
  | nil => simp [setKey]
  | cons hd rest ih =>
    obtain ⟨k', v'⟩ := hd
    by_cases h : k' = k
    · simp only [setKey, if_pos h, List.mem_cons]
      rintro (rfl | hm)
      · exact Or.inl rfl
      · exact Or.inr (Or.inr hm)
    · simp only [setKey, if_neg h, List.mem_cons]
      rintro (rfl | hm)
      · exact Or.inr (Or.inl rfl)
      · rcases ih hm with h1 | h2
        · exact Or.inl h1
        · exact Or.inr (Or.inr h2)

/-! ## Section key normalization

The frontend computes, in `getSubsectionTitles` and in the section sort
comparator of `SectionSelectorPage`,
`title.toLowerCase().replace(/[^a-z0-9]+/g, '_').replace(/^_|_$/g, '')`. -/

def isKeyChar (c : Char) : Bool :=
  ('a' ≤ c && c ≤ 'z') || ('0' ≤ c && c ≤ '9')

/-- One pass of the JS regex replace `/[^a-z0-9]+/g → '_'`: the flag records
whether the previous character was part of a non-alphanumeric run (so a run
emits a single underscore). -/
def collapseAux : Bool → Str → Str
  | _, [] => []
  | prevBad, c :: rest =>
    if isKeyChar c then c :: collapseAux false rest
    else if prevBad then collapseAux true rest
    else '_' :: collapseAux true rest

/-- The JS regex replace `/^_|_$/g → ''`: with no multiline flag, `^` matches
only at index 0 and `$` only at the end, so at most one leading and one
trailing underscore are removed. -/
def stripLead : Str → Str
  | '_' :: rest => rest
  | l => l

def stripTrail (l : Str) : Str := (stripLead l.reverse).reverse

/-- Section key computation as written in `SectionSelectorPage.tsx`
(lines 73 and 751): lowercase, collapse non-alphanumeric runs to `_`,
strip a leading and a trailing underscore. -/
def normalizedTitle (t : Str) : Str :=
  stripTrail (stripLead (collapseAux false (t.map Char.toLower)))

/-- Spec reading of the key ("lowercase(title), non-alphanumeric runs
collapsed to `_`, trimmed"), built along a different route: first map every
non-alphanumeric character to `_`, then squeeze consecutive underscores,
then trim. -/
def toUnders (s : Str) : Str :=
  s.map (fun c => if isKeyChar c then c else '_')

def squeezeAux : Bool → Str → Str
  | _, [] => []
  | prevU, c :: rest =>
    if c = '_' then (if prevU then squeezeAux true rest else '_' :: squeezeAux true rest)
    else c :: squeezeAux false rest

def specSectionKey (t : Str) : Str :=
  stripTrail (stripLead (squeezeAux false (toUnders (t.map Char.toLower))))

theorem collapseAux_eq_squeezeAux (s : Str) : ∀ b, collapseAux b s = squeezeAux b (toUnders s) := by
  induction s with
  | nil => intro b; simp [collapseAux, toUnders, squeezeAux]
  | cons c rest ih =>
    intro b
    by_cases hc : isKeyChar c = true
    · have hne : ¬ c = '_' := by
        intro h; subst h; simp [isKeyChar] at hc
      simp [collapseAux, toUnders, squeezeAux, hc, hne, ih]
    · cases b with
      | true => simp [collapseAux, toUnders, squeezeAux, hc, ih]
      | false => simp [collapseAux, toUnders, squeezeAux, hc, ih]

/-- C4: the join key correlating `SectionInfo`, selections and metadata is
the title lowercased, with every maximal run of characters outside
`[a-z0-9]` collapsed to a single underscore, and a leading / trailing
underscore removed. -/
theorem normalizedTitle_eq_specSectionKey (t : Str) :
    normalizedTitle t = specSectionKey t := by
  unfold normalizedTitle specSectionKey
  rw [collapseAux_eq_squeezeAux]

/-! ## Data model -/

inductive SecType where
  | simple
  | complex
deriving DecidableEq, Repr

structure SectionMetadata where
  type : SecType
  label : Str
  item_count : Option Nat
deriving DecidableEq, Repr

abbrev Metadata := List (Str × SectionMetadata)

structure SectionInfo where
  title : Str
  subsections : List Str
deriving DecidableEq, Repr

/-- Section block of `latex_blocks.sections`.  The wrapper begin/end markup
and section-level closing markup are tracked separately from item content
(spec §4.2: wrapper environments are emitted only when an item survives);
a block without a wrapper carries empty markup strings. -/
structure SectionBlock where
  section_header : Str
  full_content : Str
  has_items : Bool
  title : Str
  items : List Str
  wrapper_begin : Str
  wrapper_end : Str
  section_closing : Str
deriving DecidableEq, Repr

structure LatexBlocks where
  preamble : Str
  sections : List (Str × SectionBlock)
  closing : Str
deriving DecidableEq, Repr

structure ParsedData where
  format_id : Str
  latex_blocks : LatexBlocks
  section_info : List SectionInfo
  original_latex : Str
deriving DecidableEq, Repr

/-- A selection value: `boolean` for simple sections,
`{enabled, items}` for complex ones. -/
inductive Selection where
  | simple (b : Bool)
  | complex (enabled : Bool) (items : List Nat)
deriving DecidableEq, Repr

abbrev Selections := List (Str × Selection)

/-! ## Frontend selection state (SectionSelectorPage.tsx) -/

/-- Initial selections built after a successful parse
(`parseLatexSections`, lines 104-119): iterate the metadata entries,
skip `header`, simple sections map to `true`, all other sections map to
`{enabled: true, items: [0 .. item_count-1]}` (with `item_count || 0`). -/
def initSelections : Metadata → Selections
  | [] => []
  | (k, m) :: rest =>
    if k = headerKey then initSelections rest
    else if m.type = SecType.simple then (k, Selection.simple true) :: initSelections rest
    else (k, Selection.complex true (List.range (m.item_count.getD 0))) :: initSelections rest

/-- The JS local `currentSelection?.items ?? []`: `[]` when the stored
selection is a boolean or the key is missing. -/
def curItems (s : Selections) (k : Str) : List Nat :=
  match lookupKey k s with
  | some (Selection.complex _ items) => items
  | _ => []

/-- `handleSectionChange` (lines 219-234).  A key missing from `metadata`
makes the JS code throw before `setSelections` runs, leaving the state
unchanged; this is modelled by returning the input unchanged. -/
def handleSectionChange (md : Metadata) (s : Selections) (k : Str) (enabled : Bool) : Selections :=
  match lookupKey k md with
  | none => s
  | some m =>
    if m.type = SecType.simple then setKey k (Selection.simple enabled) s
    else setKey k (Selection.complex enabled (if enabled then curItems s k else [])) s

/-- The JS local `newItems` of `handleItemChange`: push the index if absent
when selecting, filter it out when deselecting. -/
def newItemsOf (s : Selections) (k : Str) (idx : Nat) (enabled : Bool) : List Nat :=
  if enabled then (if idx ∈ curItems s k then curItems s k else curItems s k ++ [idx])
  else (curItems s k).filter (fun i => i != idx)

/-- `handleItemChange` (lines 237-257). -/
def handleItemChange (s : Selections) (k : Str) (idx : Nat) (enabled : Bool) : Selections :=
  setKey k (Selection.complex (!(newItemsOf s k idx enabled).isEmpty) (newItemsOf s k idx enabled)) s

/-- Selection states reachable in the UI from the post-parse initial state
by checkbox operations. -/
inductive Reach (md : Metadata) : Selections → Prop
  | init : Reach md (initSelections md)
  | sec (k : Str) (e : Bool) {s : Selections} :
      Reach md s → Reach md (handleSectionChange md s k e)
  | item (k : Str) (i : Nat) (e : Bool) {s : Selections} :
      Reach md s → Reach md (handleItemChange s k i e)

/-- A selection value is well-formed when a complex items list has no
duplicate indices. -/
def selGood : Selection → Prop
  | Selection.simple _ => True
  | Selection.complex _ items => items.Nodup

/-! ## Whitespace and content equivalence -/

def wsOnly (s : Str) : Bool := s.all Char.isWhitespace

/-- Content of a string: its characters with whitespace removed.  Two
strings are content-equivalent when their contents agree; strings that
differ only in whitespace at block joins are content-equivalent. -/
def stripWS (s : Str) : Str := s.filter (fun c => !c.isWhitespace)

theorem stripWS_append (a b : Str) : stripWS (a ++ b) = stripWS a ++ stripWS b := by
  simp [stripWS, List.filter_append]

theorem stripWS_of_wsOnly {g : Str} (h : wsOnly g = true) : stripWS g = [] := by
  induction g with
  | nil => rfl
  | cons c rest ih =>
    simp only [wsOnly, List.all_cons, Bool.and_eq_true] at h
    simp [stripWS, h.1, List.filter_cons]
    simpa [stripWS, wsOnly] using ih h.2

theorem stripWS_join (L : List Str) : stripWS L.flatten = (L.map stripWS).flatten := by
  induction L with
  | nil => rfl
  | cons x rest ih => simp [List.flatten, stripWS_append, ih]

/-! ## Assembler / filter engine

Modelled from the spec: the backend assembler
(`Output/section_selector.py`, `generate_filtered_latex`) is not part of
src/; §4.4 of the spec defines it. -/

/-- Blank line inserted after every non-last emitted item (spec §4.4 step 4). -/
def nlnl : Str := ['\n', '\n']

/-- Join a list of blocks with a separator after every non-last element. -/
def joinSep (sep : Str) : List Str → Str
  | [] => []
  | [x] => x
  | x :: xs => x ++ sep ++ joinSep sep xs

/-- Requested item indices re-sorted into original document order
(spec §4.4 step 4: "selection order is never trusted"); indices outside
the section's item range are dropped. -/
def chosenIdx (n : Nat) (items : List Nat) : List Nat :=
  (List.range n).filter (fun i => decide (i ∈ items))

/-- Modelled from the spec: a metadata key missing from `selections`
defaults to fully selected (§4.4 tie-breaks). -/
def defaultSel (b : SectionBlock) : Selection :=
  if b.has_items then Selection.complex true (List.range b.items.length) else Selection.simple true

def emitItems (texts : List Str) (items : List Nat) : Str :=
  joinSep nlnl ((chosenIdx texts.length items).map (fun i => texts.getD i []))

/-- Modelled from the spec: emission of one `section_info` entry
(§4.4 steps 3-4).  Simple section: `section_header ++ full_content` iff
selected.  Complex section: omitted entirely (header and wrapper included)
when disabled or no items selected; otherwise header, wrapper begin,
selected items in document order joined by blank lines, wrapper end,
section closing. -/
def emitSection (blocks : LatexBlocks) (sels : Selections) (info : SectionInfo) : Str :=
  match lookupKey (normalizedTitle info.title) blocks.sections with
  | none => []
  | some b =>
    match (lookupKey (normalizedTitle info.title) sels).getD (defaultSel b) with
    | Selection.simple bl => if bl then b.section_header ++ b.full_content else []
    | Selection.complex e items =>
      if e && !items.isEmpty then
        b.section_header ++ b.wrapper_begin ++ emitItems b.items items
          ++ b.wrapper_end ++ b.section_closing
      else []

/-- Modelled from the spec: `assemble(parsed_data, selections)` (§4.4):
preamble verbatim, then the `section_info` entries in order (never the
unordered `sections` map), then the closing block verbatim. -/
def assemble (p : ParsedData) (sels : Selections) : Str :=
  p.latex_blocks.preamble
    ++ (p.section_info.map (emitSection p.latex_blocks sels)).flatten
    ++ p.latex_blocks.closing

/-- The all-selected selections map: every non-header key enabled with all
of its item indices selected. -/
def allSelectedOf (secs : List (Str × SectionBlock)) : Selections :=
  secs.filterMap (fun e => if e.1 = headerKey then none else some (e.1, defaultSel e.2))

def allSelected (p : ParsedData) : Selections :=
  allSelectedOf p.latex_blocks.sections

/-! ## Original-document decomposition (for the round-trip claim)

Modelled from the spec: the block splitter (§4.2) produces blocks whose
concatenation, in `section_info` order and with whitespace between blocks,
is the original document.  The gap functions give the whitespace that sat
between blocks and between items in the original. -/

/-- Items as laid out in the original document: joined by the original
inter-item gaps `g 0, g 1, ...`. -/
def joinGaps : List Str → (Nat → Str) → Str
  | [], _ => []
  | [x], _ => x
  | x :: xs, g => x ++ g 0 ++ joinGaps xs (fun n => g (n + 1))

/-- The full original span of one section: for an item section its header,
wrapper begin, items with their original gaps, wrapper end and closing
markup; for a simple section its header and full content. -/
def sectionFullG (b : SectionBlock) (g : Nat → Str) : Str :=
  if b.has_items then
    b.section_header ++ b.wrapper_begin ++ joinGaps b.items g
      ++ b.wrapper_end ++ b.section_closing
  else b.section_header ++ b.full_content

/-- The document body between preamble and closing: each `section_info`
entry's span preceded by an inter-section gap. -/
def docBody (blocks : LatexBlocks) : List SectionInfo → (Nat → Str) → (Nat → Nat → Str) → Str
  | [], sg, _ => sg 0
  | info :: rest, sg, ig =>
    sg 0
      ++ (match lookupKey (normalizedTitle info.title) blocks.sections with
          | some b => sectionFullG b (ig 0)
          | none => [])
      ++ docBody blocks rest (fun n => sg (n + 1)) (fun n => ig (n + 1))

/-! ## Validator

Modelled from the spec: the backend validator (§4.5) is not part of src/.
It counts unescaped braces over the whole assembled document; on mismatch
it persists a debug pair and still returns the filtered text. -/

/-- Running count of unescaped occurrences of `t`, carrying the previous
character: an occurrence directly preceded by a backslash is not counted. -/
def countUnescapedAux (t : Char) : Option Char → Str → Nat
  | _, [] => 0
  | prev, c :: rest =>
    (if c = t ∧ prev ≠ some '\\' then 1 else 0) + countUnescapedAux t (some c) rest

def countUnescaped (t : Char) (s : Str) : Nat := countUnescapedAux t none s

/-- Each character paired with the character preceding it in the document
(`none` for the first character). -/
def prevPairs (s : Str) : List (Char × Option Char) := s.zip (none :: s.map some)

/-- Spec reading of the count: the number of occurrences of `t` whose
preceding character is not a backslash. -/
def countUnescapedSpec (t : Char) (s : Str) : Nat :=
  (prevPairs s).countP (fun pc => decide (pc.1 = t) && !decide (pc.2 = some '\\'))

inductive ValidateResult where
  | ok
  | braceMismatch
deriving DecidableEq, Repr

def validate (s : Str) : ValidateResult :=
  if countUnescaped '\x7b' s = countUnescaped '\x7d' s then ValidateResult.ok
  else ValidateResult.braceMismatch

def filteredDebugName : Str := "filtered_debug.tex".toList

def originalDebugName : Str := "original_debug.tex".toList

/-- Outcome of validating an assembled document: the filtered text is
returned in all cases, never repaired or withheld; on mismatch the debug
pair to persist is recorded. -/
structure FilterRun where
  filteredLatex : Str
  status : ValidateResult
  writtenFiles : List (Str × Str)
deriving DecidableEq, Repr

def runValidate (filtered original : Str) : FilterRun :=
  match validate filtered with
  | ValidateResult.ok => ⟨filtered, ValidateResult.ok, []⟩
  | ValidateResult.braceMismatch =>
    ⟨filtered, ValidateResult.braceMismatch,
      [(filteredDebugName, filtered), (originalDebugName, original)]⟩

/-! ## Purity / determinism

The only external side effect of the engine is the debug-file write on a
brace mismatch; it is modelled by an explicit world holding the files
written so far. -/

structure World where
  files : List (Str × Str)
deriving DecidableEq, Repr

/-- The filter entry point: assemble, validate, record debug writes. -/
def filterPipeline (p : ParsedData) (sels : Selections) (w : World) :
    Str × ValidateResult × World :=
  let r := runValidate (assemble p sels) p.original_latex
  (r.filteredLatex, r.status, ⟨w.files ++ r.writtenFiles⟩)

/-! ## Generic format parser

Modelled from the spec: the format parsers (`Section_parsers/`) and block
splitter are not part of src/.  This is one representative template
variant (§4.1): its anchor pattern is `\section{...}`; a section with no
discernible item list renders as simple, and a document with no anchors
degrades to a header+closing-only document. -/

def anchorPat : Str := "\\section\x7b".toList

def endDocPat : Str := "\\end\x7bdocument\x7d".toList

def leadsWith : Str → Str → Bool
  | [], _ => true
  | _ :: _, [] => false
  | p :: ps, c :: cs => p == c && leadsWith ps cs

/-- Split at the first occurrence of `pat`: returns the text before the
match and the text from the match on, or `none` if `pat` never occurs. -/
def splitFirst (pat : Str) : Str → Option (Str × Str)
  | [] => if pat.isEmpty then some ([], []) else none
  | c :: cs =>
    if leadsWith pat (c :: cs) then some ([], c :: cs)
    else match splitFirst pat cs with
      | some (a, b) => some (c :: a, b)
      | none => none

def takeTitle (s : Str) : Str := s.takeWhile (fun c => c != '\x7d')

def simpleBlockOf (title span : Str) : SectionBlock :=
  ⟨[], span, false, title, [], [], [], []⟩

/-- Collect section (title, span) pairs from text beginning at an anchor;
each span runs to the next anchor, the last to the document terminator.
The fuel is the text length, which bounds the number of sections. -/
def collectSections : Nat → Str → List (Str × Str) × Str
  | 0, s => ([], s)
  | fuel + 1, s =>
    let afterA := s.drop anchorPat.length
    let title := takeTitle afterA
    match splitFirst anchorPat afterA with
    | some (before, rest) =>
      let (more, closing) := collectSections fuel rest
      ((title, anchorPat ++ before) :: more, closing)
    | none =>
      match splitFirst endDocPat afterA with
      | some (before, rest) => ([(title, anchorPat ++ before)], rest)
      | none => ([(title, s)], [])

def genericParse (latex : Str) (fmt : Str) : ParsedData :=
  match splitFirst anchorPat latex with
  | none => ⟨fmt, ⟨latex, [], []⟩, [], latex⟩
  | some (pre, rest) =>
    let (secs, closing) := collectSections rest.length rest
    ⟨fmt,
      ⟨pre, secs.map (fun ts => (normalizedTitle ts.1, simpleBlockOf ts.1 ts.2)), closing⟩,
      secs.map (fun ts => ⟨ts.1, []⟩),
      latex⟩

/-- The parse entry point, with the world threaded through to make visible
that parsing performs no I/O and reads no hidden state. -/
def parseModel (latex : Str) (fmt : Str) (w : World) : ParsedData × World :=
  (genericParse latex fmt, w)

/-! ## API layer (configStorage.ts / api.ts, `apiRequest` lines 139-206)

The network environment is modelled by the outcome of the fetch: a
response (with its `ok` flag, status, status text, and `some` body when
`response.json()` resolves, `none` when it rejects), an abort raised by
the timeout, or a fetch failure (a rejection with an `Error` whose name is
not `AbortError`). -/

structure ApiError where
  etype : Str
  message : Str
deriving DecidableEq, Repr

/-- A parsed JSON response body; `errorField` is its `error` property. -/
structure JsonBody where
  raw : Str
  errorField : Option ApiError
deriving DecidableEq, Repr

structure ApiResponse where
  success : Bool
  data : Option JsonBody
  error : Option ApiError
deriving DecidableEq, Repr

inductive FetchOutcome where
  | response (ok : Bool) (status : Nat) (statusText : Str) (body : Option JsonBody)
  | abortError
  | fetchError (message : Str)
deriving DecidableEq, Repr

def timeoutMessage : Str :=
  "Request timed out. Please check your connection and try again.".toList

/-- Representative message of the `SyntaxError` rejecting `response.json()`
on a body that is not JSON. -/
def jsonParseMessage : Str := "Unexpected end of JSON input".toList

def networkMessage (m : Str) : Str := "Network error: ".toList ++ m

def httpMessage (status : Nat) (statusText : Str) : Str :=
  "HTTP ".toList ++ (toString status).toList ++ ": ".toList ++ statusText

/-- `apiRequest`: awaits `response.json()` before checking `ok`, so a body
that fails to parse throws inside the `try` and is caught as a non-abort
`Error`; an abort maps to `timeout_error`; any other rejection maps to
`network_error`; a non-ok response returns the body's `error` field or an
`api_error` fallback.  The function is total: every outcome resolves to an
`ApiResponse`, none throws. -/
def apiRequest (o : FetchOutcome) : ApiResponse :=
  match o with
  | FetchOutcome.response ok status statusText body =>
    match body with
    | none =>
      ⟨false, none, some ⟨"network_error".toList, networkMessage jsonParseMessage⟩⟩
    | some b =>
      if ok then ⟨true, some b, none⟩
      else ⟨false, none, some (b.errorField.getD ⟨"api_error".toList, httpMessage status statusText⟩)⟩
  | FetchOutcome.abortError => ⟨false, none, some ⟨"timeout_error".toList, timeoutMessage⟩⟩
  | FetchOutcome.fetchError m => ⟨false, none, some ⟨"network_error".toList, networkMessage m⟩⟩

/-- `parseSections` posts to `/api/parse-sections` and returns `apiRequest`'s
result unchanged. -/
def parseSectionsApi (o : FetchOutcome) : ApiResponse := apiRequest o

/-- `filterLatex` posts to `/api/filter-latex` and returns `apiRequest`'s
result unchanged. -/
def filterLatexApi (o : FetchOutcome) : ApiResponse := apiRequest o

/-- `compileLatex` posts to `/api/compile-latex` and returns `apiRequest`'s
result unchanged. -/
def compileLatexApi (o : FetchOutcome) : ApiResponse := apiRequest o

/-- `preprocessLatex` posts to `/api/preprocess-latex` and returns
`apiRequest`'s result unchanged. -/
def preprocessLatexApi (o : FetchOutcome) : ApiResponse := apiRequest o

/-! ## Theorems: initial selections (C5) -/

theorem initSelections_keys (md : Metadata) :
    (initSelections md).map Prod.fst = (md.map Prod.fst).filter (fun k => !decide (k = headerKey)) := by
  induction md with
  | nil => rfl
  | cons e rest ih =>
    obtain ⟨k, m⟩ := e
    by_cases hk : k = headerKey
    · simp [initSelections, hk, ih]
    · by_cases ht : m.type = SecType.simple
      · simp [initSelections, hk, ht, ih]
      · simp [initSelections, hk, ht, ih]

theorem initSelections_lookup (md : Metadata) {k : Str} (hk : k ≠ headerKey) :
    lookupKey k (initSelections md)
      = (lookupKey k md).map (fun m =>
          if m.type = SecType.simple then Selection.simple true
          else Selection.complex true (List.range (m.item_count.getD 0))) := by
  induction md with
  | nil => simp [initSelections, lookupKey]
  | cons e rest ih =>
    obtain ⟨k', m'⟩ := e
    by_cases hk' : k' = headerKey
    · subst hk'
      simp [initSelections, lookupKey, Ne.symm hk, ih]
    · by_cases he : k' = k
      · subst he
        by_cases ht : m'.type = SecType.simple
        · simp [initSelections, lookupKey, hk', ht]
        · simp [initSelections, lookupKey, hk', ht]
      · by_cases ht : m'.type = SecType.simple
        · simp [initSelections, lookupKey, hk', he, ht, ih]
        · simp [initSelections, lookupKey, hk', he, ht, ih]

theorem initSelections_header (md : Metadata) :
    lookupKey headerKey (initSelections md) = none := by
  induction md with
  | nil => rfl
  | cons e rest ih =>
    obtain ⟨k, m⟩ := e
    by_cases hk : k = headerKey
    · simp [initSelections, hk, ih]
    · by_cases ht : m.type = SecType.simple
      · simp [initSelections, hk, ht, lookupKey, ih]
      · simp [initSelections, hk, ht, lookupKey, ih]

/-- C5: after a successful parse the initial selections hold exactly the
non-header metadata keys; a simple key maps to `true`, every other key to
`{enabled: true, items: [0 .. item_count-1]}` (empty when `item_count` is
absent); `header` is never selectable. -/
theorem initSelections_spec (md : Metadata) :
    ((initSelections md).map Prod.fst
       = (md.map Prod.fst).filter (fun k => !decide (k = headerKey))) ∧
    (∀ (k : Str) (m : SectionMetadata), k ≠ headerKey → lookupKey k md = some m →
       lookupKey k (initSelections md)
         = some (if m.type = SecType.simple then Selection.simple true
                 else Selection.complex true (List.range (m.item_count.getD 0)))) ∧
    lookupKey headerKey (initSelections md) = none :=
  ⟨initSelections_keys md,
    fun _ _ hk h => by rw [initSelections_lookup md hk, h, Option.map_some'],
    initSelections_header md⟩

theorem initSelections_spec_witness :
    lookupKey "skills".toList
        (initSelections [("header".toList, ⟨SecType.simple, "Header".toList, none⟩),
                         ("skills".toList, ⟨SecType.complex, "Skills".toList, some 3⟩)])
      = some (Selection.complex true [0, 1, 2]) := by
  have h := (initSelections_spec
    [("header".toList, ⟨SecType.simple, "Header".toList, none⟩),
     ("skills".toList, ⟨SecType.complex, "Skills".toList, some 3⟩)]).2.1
    "skills".toList ⟨SecType.complex, "Skills".toList, some 3⟩ (by decide) (by decide)
  simpa using h

/-! ## Theorems: section enable/disable round trip (C8) -/

/-- C8: disabling a complex section resets its selection to
`{enabled: false, items: []}` and re-enabling yields
`{enabled: true, items: []}` — the previously selected item indices are
not restored, so disable-then-enable is not the identity. -/
theorem handleSectionChange_disable_enable (md : Metadata) (s : Selections) (k : Str)
    (m : SectionMetadata) (e : Bool) (items : List Nat)
    (hm : lookupKey k md = some m) (ht : m.type = SecType.complex)
    (hs : lookupKey k s = some (Selection.complex e items)) :
    lookupKey k (handleSectionChange md s k false) = some (Selection.complex false []) ∧
    lookupKey k (handleSectionChange md (handleSectionChange md s k false) k true)
      = some (Selection.complex true []) ∧
    (items ≠ [] →
      lookupKey k (handleSectionChange md (handleSectionChange md s k false) k true)
        ≠ some (Selection.complex e items)) := by
  have htype : ¬ m.type = SecType.simple := by simp [ht]
  have h1 : handleSectionChange md s k false = setKey k (Selection.complex false []) s := by
    simp [handleSectionChange, hm, htype]
  have hl1 : lookupKey k (handleSectionChange md s k false) = some (Selection.complex false []) := by
    rw [h1]; exact lookupKey_setKey_self k _ s
  have h2 : handleSectionChange md (handleSectionChange md s k false) k true
      = setKey k (Selection.complex true []) (handleSectionChange md s k false) := by
    simp [handleSectionChange, hm, htype, curItems, lookupKey_setKey_self]
  have hl2 : lookupKey k (handleSectionChange md (handleSectionChange md s k false) k true)
      = some (Selection.complex true []) := by
    rw [h2]; exact lookupKey_setKey_self k _ _
  refine ⟨hl1, hl2, fun hne heq => ?_⟩
  rw [hl2] at heq
  injection heq with heq
  injection heq with h3 h4
  exact hne h4.symm

theorem handleSectionChange_disable_enable_witness :
    lookupKey "skills".toList
        (handleSectionChange [("skills".toList, ⟨SecType.complex, "Skills".toList, some 2⟩)]
          (handleSectionChange [("skills".toList, ⟨SecType.complex, "Skills".toList, some 2⟩)]
            [("skills".toList, Selection.complex true [0, 1])] "skills".toList false)
          "skills".toList true)
      ≠ some (Selection.complex true [0, 1]) :=
  (handleSectionChange_disable_enable
    [("skills".toList, ⟨SecType.complex, "Skills".toList, some 2⟩)]
    [("skills".toList, Selection.complex true [0, 1])]
    "skills".toList ⟨SecType.complex, "Skills".toList, some 2⟩ true [0, 1]
    (by decide) rfl (by decide)).2.2 (by decide)

/-! ## Theorems: item deselection (C6) -/

/-- C6: deselecting an item removes exactly that index from the items list
and sets `enabled` iff the remainder is non-empty; deselecting the sole
remaining item yields `{enabled: false, items: []}`, and assembling with
that selection omits the section entirely, header and wrapper included. -/
theorem handleItemChange_deselect (s : Selections) (k : Str) (idx : Nat) (e : Bool)
    (items : List Nat) (hs : lookupKey k s = some (Selection.complex e items)) :
    lookupKey k (handleItemChange s k idx false)
      = some (Selection.complex (!(items.filter (fun i => i != idx)).isEmpty)
                                (items.filter (fun i => i != idx))) ∧
    ((!(items.filter (fun i => i != idx)).isEmpty) = true
       ↔ items.filter (fun i => i != idx) ≠ []) ∧
    (items = [idx] →
      lookupKey k (handleItemChange s k idx false) = some (Selection.complex false []) ∧
      ∀ (blocks : LatexBlocks) (info : SectionInfo) (b : SectionBlock),
        normalizedTitle info.title = k →
        lookupKey k blocks.sections = some b →
        emitSection blocks (handleItemChange s k idx false) info = []) := by
  have h1 : handleItemChange s k idx false
      = setKey k (Selection.complex (!(items.filter (fun i => i != idx)).isEmpty)
                                    (items.filter (fun i => i != idx))) s := by
    simp [handleItemChange, newItemsOf, curItems, hs]
  have hl1 : lookupKey k (handleItemChange s k idx false)
      = some (Selection.complex (!(items.filter (fun i => i != idx)).isEmpty)
                                (items.filter (fun i => i != idx))) := by
    rw [h1]; exact lookupKey_setKey_self k _ s
  refine ⟨hl1, ?_, ?_⟩
  · cases hfe : items.filter (fun i => i != idx) <;> simp [List.isEmpty]
  · intro hsole
    subst hsole
    have hfilter : [idx].filter (fun i => i != idx) = ([] : List Nat) := by simp
    rw [hfilter] at hl1
    refine ⟨by simpa using hl1, fun blocks info b hkey hb => ?_⟩
    rw [emitSection, hkey, hb]
    rw [show lookupKey k (handleItemChange s k idx false) = some (Selection.complex false [])
      from by simpa using hl1]
    simp

theorem handleItemChange_deselect_witness :
    lookupKey "skills".toList
        (handleItemChange [("skills".toList, Selection.complex true [0])] "skills".toList 0 false)
      = some (Selection.complex false []) ∧
    emitSection
        ⟨[], [("skills".toList,
               ⟨"\\section\x7bSkills\x7d".toList, [], true, "Skills".toList,
                ["\\item C".toList], [], [], []⟩)], []⟩
        (handleItemChange [("skills".toList, Selection.complex true [0])] "skills".toList 0 false)
        ⟨"Skills".toList, ["C".toList]⟩
      = [] := by
  have h := (handleItemChange_deselect [("skills".toList, Selection.complex true [0])]
    "skills".toList 0 true [0] (by decide)).2.2 rfl
  exact ⟨h.1, h.2 _ ⟨"Skills".toList, ["C".toList]⟩
    ⟨"\\section\x7bSkills\x7d".toList, [], true, "Skills".toList,
     ["\\item C".toList], [], [], []⟩ (by decide) (by decide)⟩

/-! ## Theorems: brace-balance validator (C2) -/

theorem countUnescapedAux_eq_countP (t : Char) (s : Str) :
    ∀ prev, countUnescapedAux t prev s
      = (s.zip (prev :: s.map some)).countP
          (fun pc => decide (pc.1 = t) && !decide (pc.2 = some '\\')) := by
  induction s with
  | nil => intro prev; rfl
  | cons c rest ih =>
    intro prev
    rw [countUnescapedAux, List.map_cons, List.zip_cons_cons, List.countP_cons, ih (some c)]
    have : (if c = t ∧ prev ≠ some '\\' then 1 else 0)
        = (if (decide ((c, prev).1 = t) && !decide ((c, prev).2 = some '\\')) = true then 1 else 0) := by
      by_cases h1 : c = t <;> by_cases h2 : prev = some '\\' <;> simp [h1, h2]
    rw [this]
    exact Nat.add_comm _ _

theorem countUnescaped_eq_spec (t : Char) (s : Str) :
    countUnescaped t s = countUnescapedSpec t s :=
  countUnescapedAux_eq_countP t s none

/-- C2: validation succeeds exactly when the counts of unescaped `{` and
`}` over the whole document agree; on mismatch the debug pair
`filtered_debug.tex` / `original_debug.tex` is persisted; the filtered
text is returned to the caller in every case. -/
theorem runValidate_spec (f o : Str) :
    ((runValidate f o).status = ValidateResult.ok
       ↔ countUnescapedSpec '\x7b' f = countUnescapedSpec '\x7d' f) ∧
    ((runValidate f o).status = ValidateResult.braceMismatch →
       (runValidate f o).writtenFiles = [(filteredDebugName, f), (originalDebugName, o)]) ∧
    (runValidate f o).filteredLatex = f := by
  by_cases hc : countUnescapedSpec '\x7b' f = countUnescapedSpec '\x7d' f
  · simp [runValidate, validate, countUnescaped_eq_spec, hc]
  · simp [runValidate, validate, countUnescaped_eq_spec, hc]

theorem runValidate_spec_witness :
    (runValidate "\x7b\x7b".toList "x".toList).writtenFiles
        = [(filteredDebugName, "\x7b\x7b".toList), (originalDebugName, "x".toList)] ∧
    (runValidate "\x7b\x7b".toList "x".toList).filteredLatex = "\x7b\x7b".toList :=
  ⟨(runValidate_spec "\x7b\x7b".toList "x".toList).2.1 (by decide),
    (runValidate_spec "\x7b\x7b".toList "x".toList).2.2⟩

/-! ## Theorems: API wrappers (C10) -/

/-- C10 counterexample: an HTTP-ok response whose body fails to parse as
JSON — `response.json()` rejects before the `ok` check — resolves to
`success = false` with error type `network_error`, so "success=true ...
exactly when the HTTP response is ok" fails in the forward direction. -/
theorem apiRequest_ok_unparsed_body :
    (apiRequest (FetchOutcome.response true 200 "OK".toList none)).success = false ∧
    (apiRequest (FetchOutcome.response true 200 "OK".toList none)).error
      = some ⟨"network_error".toList, networkMessage jsonParseMessage⟩ :=
  ⟨rfl, rfl⟩

/-- C10 amended: every fetch outcome resolves to an `ApiResponse` (never a
throw); `success = true` with the parsed body exactly for an ok response
whose body parses; an ok response with an unparseable body yields
`network_error`; a non-ok response yields `success = false`; an abort
raised by the timeout yields `timeout_error`; any other fetch failure
yields `network_error`; and the wrappers `parseSections`, `filterLatex`,
`compileLatex`, `preprocessLatex` all return `apiRequest`'s result
unchanged. -/
theorem apiRequest_amended :
    (∀ (st : Nat) (stx : Str) (b : JsonBody),
       apiRequest (FetchOutcome.response true st stx (some b)) = ⟨true, some b, none⟩) ∧
    (∀ (st : Nat) (stx : Str) (body : Option JsonBody),
       (apiRequest (FetchOutcome.response false st stx body)).success = false) ∧
    (∀ (st : Nat) (stx : Str),
       apiRequest (FetchOutcome.response true st stx none)
         = ⟨false, none, some ⟨"network_error".toList, networkMessage jsonParseMessage⟩⟩) ∧
    (apiRequest FetchOutcome.abortError
       = ⟨false, none, some ⟨"timeout_error".toList, timeoutMessage⟩⟩) ∧
    (∀ m : Str, apiRequest (FetchOutcome.fetchError m)
       = ⟨false, none, some ⟨"network_error".toList, networkMessage m⟩⟩) ∧
    (∀ o : FetchOutcome, (apiRequest o).success = true ∨ (apiRequest o).error.isSome = true) ∧
    (∀ o : FetchOutcome, parseSectionsApi o = apiRequest o ∧ filterLatexApi o = apiRequest o ∧
       compileLatexApi o = apiRequest o ∧ preprocessLatexApi o = apiRequest o) := by
  refine ⟨fun st stx b => rfl, ?_, fun st stx => rfl, rfl, fun m => rfl, ?_, fun o => ⟨rfl, rfl, rfl, rfl⟩⟩
  · intro st stx body
    cases body <;> rfl
  · intro o
    cases o with
    | response ok st stx body =>
      cases body with
      | none => exact Or.inr rfl
      | some b => cases ok with
        | true => exact Or.inl rfl
        | false => exact Or.inr rfl
    | abortError => exact Or.inr rfl
    | fetchError m => exact Or.inr rfl

/-! ## Theorems: determinism / purity (C7) -/

/-- C7: parsing and assembly-plus-validation are pure: with the debug-file
side effect made explicit as a world, the parsed data, the filtered output
and the validation status are independent of the world, a repeated call
with the threaded world returns the same filtered output, and the only
world change is appending the debug writes. -/
theorem engine_deterministic (latex fmt : Str) (w w' : World)
    (p : ParsedData) (sels : Selections) :
    (parseModel latex fmt w).1 = (parseModel latex fmt w').1 ∧
    (filterPipeline p sels w).1 = (filterPipeline p sels w').1 ∧
    (filterPipeline p sels w).2.1 = (filterPipeline p sels w').2.1 ∧
    (filterPipeline p sels ((filterPipeline p sels w).2.2)).1 = (filterPipeline p sels w).1 ∧
    (filterPipeline p sels w).2.2.files
      = w.files ++ (runValidate (assemble p sels) p.original_latex).writtenFiles :=
  ⟨rfl, rfl, rfl, rfl, rfl⟩

/-! ## Theorems: no duplicate item indices in reachable states (C9) -/

theorem nodup_append_singleton {l : List Nat} {a : Nat} (hl : l.Nodup) (ha : a ∉ l) :
    (l ++ [a]).Nodup := by
  rw [List.nodup_append]
  exact ⟨hl, List.nodup_singleton a, fun x hx hmem => by
    rw [List.mem_singleton] at hmem
    subst hmem
    exact ha hx⟩

theorem initSelections_selGood (md : Metadata) :
    ∀ (k : Str) (sel : Selection), (k, sel) ∈ initSelections md → selGood sel := by
  induction md with
  | nil => intro k sel h; simp [initSelections] at h
  | cons e rest ih =>
    obtain ⟨k', m⟩ := e
    intro k sel h
    by_cases hk : k' = headerKey
    · rw [initSelections, if_pos hk] at h
      exact ih k sel h
    · rw [initSelections, if_neg hk] at h
      by_cases ht : m.type = SecType.simple
      · rw [if_pos ht, List.mem_cons] at h
        rcases h with h | h
        · injection h with h1 h2
          subst h2
          trivial
        · exact ih k sel h
      · rw [if_neg ht, List.mem_cons] at h
        rcases h with h | h
        · injection h with h1 h2
          subst h2
          exact List.nodup_range _
        · exact ih k sel h

theorem selGood_setKey {s : Selections} {k : Str} {v : Selection} (hv : selGood v)
    (hgood : ∀ (k' : Str) (sel : Selection), (k', sel) ∈ s → selGood sel) :
    ∀ (k' : Str) (sel : Selection), (k', sel) ∈ setKey k v s → selGood sel := by
  intro k' sel hm
  rcases mem_setKey hm with h | h
  · injection h with h1 h2
    subst h2
    exact hv
  · exact hgood k' sel h

theorem curItems_nodup {s : Selections}
    (hgood : ∀ (k' : Str) (sel : Selection), (k', sel) ∈ s → selGood sel) (k : Str) :
    (curItems s k).Nodup := by
  unfold curItems
  rcases hls : lookupKey k s with _ | sel
  · simp
  · cases sel with
    | simple b => simp
    | complex e its => exact hgood k _ (lookupKey_mem hls)

theorem newItemsOf_nodup {s : Selections}
    (hgood : ∀ (k' : Str) (sel : Selection), (k', sel) ∈ s → selGood sel)
    (k : Str) (idx : Nat) (e : Bool) : (newItemsOf s k idx e).Nodup := by
  have hcur := curItems_nodup hgood k
  unfold newItemsOf
  cases e with
  | false => simpa using List.Nodup.filter _ hcur
  | true =>
    by_cases hi : idx ∈ curItems s k
    · simpa [hi] using hcur
    · simpa [hi] using nodup_append_singleton hcur hi

theorem handleSectionChange_selGood (md : Metadata) (s : Selections) (k : Str) (e : Bool)
    (hgood : ∀ (k' : Str) (sel : Selection), (k', sel) ∈ s → selGood sel) :
    ∀ (k' : Str) (sel : Selection), (k', sel) ∈ handleSectionChange md s k e → selGood sel := by
  intro k' sel hm
  unfold handleSectionChange at hm
  split at hm
  · exact hgood k' sel hm
  · split at hm
    · exact selGood_setKey (show selGood (Selection.simple e) from trivial) hgood k' sel hm
    · refine selGood_setKey ?_ hgood k' sel hm
      show ((if e then curItems s k else []) : List Nat).Nodup
      cases e with
      | false => simp
      | true => simpa using curItems_nodup hgood k

theorem handleItemChange_selGood (s : Selections) (k : Str) (i : Nat) (e : Bool)
    (hgood : ∀ (k' : Str) (sel : Selection), (k', sel) ∈ s → selGood sel) :
    ∀ (k' : Str) (sel : Selection), (k', sel) ∈ handleItemChange s k i e → selGood sel := by
  unfold handleItemChange
  exact selGood_setKey (newItemsOf_nodup hgood k i e) hgood

/-- C9: from the initial post-parse selections, every state reachable by
section and item checkbox operations keeps every complex selection's items
list free of duplicate indices. -/
theorem reach_selGood (md : Metadata) (s : Selections) (h : Reach md s) :
    ∀ (k : Str) (sel : Selection), (k, sel) ∈ s → selGood sel := by
  induction h with
  | init => exact initSelections_selGood md
  | sec k e _ ih => exact handleSectionChange_selGood md _ k e ih
  | item k i e _ ih => exact handleItemChange_selGood _ k i e ih

def mdW9 : Metadata := [("skills".toList, ⟨SecType.complex, "Skills".toList, some 2⟩)]

theorem reach_selGood_witness : selGood (Selection.complex true [1]) :=
  reach_selGood mdW9 _ (Reach.item "skills".toList 0 false Reach.init)
    "skills".toList (Selection.complex true [1]) (by decide)

/-! ## Theorems: selection-order invariance (C3) -/

/-- Two selection values are equivalent when they differ at most by a
reordering of a complex items list. -/
def SelEquiv : Option Selection → Option Selection → Prop
  | none, none => True
  | some (Selection.simple a), some (Selection.simple b) => a = b
  | some (Selection.complex e1 i1), some (Selection.complex e2 i2) => e1 = e2 ∧ i1.Perm i2
  | _, _ => False

theorem emitSection_congr (blocks : LatexBlocks) (s1 s2 : Selections) (info : SectionInfo)
    (h : SelEquiv (lookupKey (normalizedTitle info.title) s1)
                  (lookupKey (normalizedTitle info.title) s2)) :
    emitSection blocks s1 info = emitSection blocks s2 info := by
  unfold emitSection
  rcases hb : lookupKey (normalizedTitle info.title) blocks.sections with _ | b
  · rfl
  · rcases ho1 : lookupKey (normalizedTitle info.title) s1 with _ | sel1 <;>
      rcases ho2 : lookupKey (normalizedTitle info.title) s2 with _ | sel2
    · rfl
    · rw [ho1, ho2] at h
      cases sel2 <;> exact h.elim
    · rw [ho1, ho2] at h
      cases sel1 <;> exact h.elim
    · rw [ho1, ho2] at h
      cases sel1 with
      | simple a =>
        cases sel2 with
        | simple b2 =>
          have hab : a = b2 := h
          rw [hab]
        | complex e2 i2 => exact h.elim
      | complex e1 i1 =>
        cases sel2 with
        | simple b2 => exact h.elim
        | complex e2 i2 =>
          obtain ⟨he, hp⟩ := (h : e1 = e2 ∧ i1.Perm i2)
          subst he
          have hie : i1.isEmpty = i2.isEmpty := by
            cases hi1 : i1 with
            | nil =>
              have : i2 = [] := (hi1 ▸ hp).symm.eq_nil
              rw [this]
            | cons x xs =>
              cases hi2 : i2 with
              | nil =>
                have : i1 = [] := (hi2 ▸ hp).eq_nil
                rw [this] at hi1
                cases hi1
              | cons y ys => rfl
          have hchosen : chosenIdx b.items.length i1 = chosenIdx b.items.length i2 := by
            unfold chosenIdx
            exact List.filter_congr (fun a _ => by simp [hp.mem_iff])
          simp only [Option.getD_some, emitItems]
          rw [hie, hchosen]

/-- C3: `assemble` output is invariant under reordering the items list of
any key (and under key enumeration order, since only lookups matter), and
the emitted item indices of a section are always in ascending original
document order. -/
theorem assemble_selection_order_invariant (p : ParsedData) (s1 s2 : Selections)
    (h : ∀ k : Str, SelEquiv (lookupKey k s1) (lookupKey k s2)) :
    assemble p s1 = assemble p s2 ∧
    ∀ (n : Nat) (items : List Nat), List.Pairwise (· < ·) (chosenIdx n items) := by
  constructor
  · unfold assemble
    have hmap : p.section_info.map (emitSection p.latex_blocks s1)
        = p.section_info.map (emitSection p.latex_blocks s2) :=
      List.map_congr_left (fun info _ =>
        emitSection_congr p.latex_blocks s1 s2 info (h (normalizedTitle info.title)))
    rw [hmap]
  · intro n items
    exact List.Pairwise.filter _ (List.pairwise_lt_range n)

/-! Shared concrete witness data: a two-section parsed document (one
simple section, one item section with a wrapper), whose original text is
the decomposition with newline gaps. -/

def eduBlockW : SectionBlock :=
  ⟨"\\section\x7bEducation\x7d\n".toList, "MIT 2020\n".toList, false,
   "Education".toList, [], [], [], []⟩

def skillsBlockW : SectionBlock :=
  ⟨"\\section\x7bSkills\x7d\n".toList, [], true, "Skills".toList,
   ["\\item C".toList, "\\item Lean".toList],
   "\\begin\x7bmulticols\x7d".toList, "\\end\x7bmulticols\x7d".toList, []⟩

def blocksW : LatexBlocks :=
  ⟨"\\documentclass\x7barticle\x7d\n\\begin\x7bdocument\x7d\n".toList,
   [("education".toList, eduBlockW), ("skills".toList, skillsBlockW)],
   "\\end\x7bdocument\x7d\n".toList⟩

def infosW : List SectionInfo :=
  [⟨"Education".toList, []⟩, ⟨"Skills".toList, ["C".toList, "Lean".toList]⟩]

def sgW : Nat → Str := fun _ => ['\n']

def igW : Nat → Nat → Str := fun _ _ => ['\n']

def pW : ParsedData :=
  ⟨"generic".toList, blocksW, infosW,
   blocksW.preamble ++ docBody blocksW infosW sgW igW ++ blocksW.closing⟩

theorem assemble_selection_order_invariant_witness :
    assemble pW [("skills".toList, Selection.complex true [1, 0])]
      = assemble pW [("skills".toList, Selection.complex true [0, 1])] :=
  (assemble_selection_order_invariant pW
    [("skills".toList, Selection.complex true [1, 0])]
    [("skills".toList, Selection.complex true [0, 1])]
    (by
      intro k
      by_cases hk : "skills".toList = k
      · simp only [lookupKey, if_pos hk]
        exact ⟨rfl, List.Perm.swap 0 1 []⟩
      · simp only [lookupKey, if_neg hk]
        trivial)).1

/-! ## Theorems: all-selected assembly reproduces the original (C1) -/

theorem joinSep_stripWS {sep : Str} (hsep : wsOnly sep = true) (xs : List Str) :
    stripWS (joinSep sep xs) = (xs.map stripWS).flatten := by
  induction xs with
  | nil => rfl
  | cons x rest ih =>
    cases rest with
    | nil => simp [joinSep]
    | cons y t =>
      rw [show joinSep sep (x :: y :: t) = x ++ sep ++ joinSep sep (y :: t) from rfl,
        stripWS_append, stripWS_append, stripWS_of_wsOnly hsep, ih]
      simp

theorem joinGaps_stripWS (xs : List Str) :
    ∀ g : Nat → Str, (∀ n, wsOnly (g n) = true) →
      stripWS (joinGaps xs g) = (xs.map stripWS).flatten := by
  induction xs with
  | nil => intro g hg; rfl
  | cons x rest ih =>
    intro g hg
    cases rest with
    | nil => simp [joinGaps]
    | cons y t =>
      rw [show joinGaps (x :: y :: t) g = x ++ g 0 ++ joinGaps (y :: t) (fun n => g (n + 1)) from rfl,
        stripWS_append, stripWS_append, stripWS_of_wsOnly (hg 0),
        ih (fun n => g (n + 1)) (fun n => hg (n + 1))]
      simp

theorem map_getD_range (l : List Str) :
    (List.range l.length).map (fun i => l.getD i []) = l := by
  induction l with
  | nil => rfl
  | cons x rest ih =>
    have hcomp : ((fun i => (x :: rest).getD i ([] : Str)) ∘ Nat.succ)
        = (fun i => rest.getD i []) := by
      funext i; rfl
    rw [List.length_cons, List.range_succ_eq_map, List.map_cons, List.map_map, hcomp, ih]
    rfl

theorem chosenIdx_range (n : Nat) : chosenIdx n (List.range n) = List.range n := by
  unfold chosenIdx
  exact List.filter_eq_self.mpr (fun a ha => by simpa using ha)

theorem lookupKey_allSelectedOf {secs : List (Str × SectionBlock)} {k : Str} {b : SectionBlock}
    (hk : k ≠ headerKey) (hb : lookupKey k secs = some b) :
    lookupKey k (allSelectedOf secs) = some (defaultSel b) := by
  induction secs with
  | nil => simp [lookupKey] at hb
  | cons e rest ih =>
    obtain ⟨k', b'⟩ := e
    by_cases he : k' = k
    · subst he
      rw [lookupKey, if_pos rfl] at hb
      injection hb with hb
      subst hb
      simp [allSelectedOf, List.filterMap_cons, hk, lookupKey]
    · rw [lookupKey, if_neg he] at hb
      by_cases hh : k' = headerKey
      · simpa [allSelectedOf, List.filterMap_cons, hh] using ih hb
      · simpa [allSelectedOf, List.filterMap_cons, hh, lookupKey, he] using ih hb

theorem lookupKey_allSelectedOf_header (secs : List (Str × SectionBlock)) :
    lookupKey headerKey (allSelectedOf secs) = none := by
  induction secs with
  | nil => rfl
  | cons e rest ih =>
    obtain ⟨k', b'⟩ := e
    by_cases hh : k' = headerKey
    · simpa [allSelectedOf, List.filterMap_cons, hh] using ih
    · simpa [allSelectedOf, List.filterMap_cons, hh, lookupKey] using ih

theorem emitSection_allSelected (blocks : LatexBlocks) (info : SectionInfo) (b : SectionBlock)
    (hb : lookupKey (normalizedTitle info.title) blocks.sections = some b)
    (hitems : b.has_items = true → b.items ≠ [])
    (g : Nat → Str) (hg : ∀ n, wsOnly (g n) = true) :
    stripWS (emitSection blocks (allSelectedOf blocks.sections) info)
      = stripWS (sectionFullG b g) := by
  have hsel : (lookupKey (normalizedTitle info.title) (allSelectedOf blocks.sections)).getD
      (defaultSel b) = defaultSel b := by
    by_cases hh : normalizedTitle info.title = headerKey
    · rw [hh, lookupKey_allSelectedOf_header]
      rfl
    · rw [lookupKey_allSelectedOf hh hb]
      rfl
  simp only [emitSection, hb, hsel]
  unfold defaultSel sectionFullG
  by_cases hhi : b.has_items = true
  · rw [if_pos hhi, if_pos hhi]
    have hne : b.items ≠ [] := hitems hhi
    have hlen : b.items.length ≠ 0 := fun h => hne (List.length_eq_zero.mp h)
    have hrne : (List.range b.items.length).isEmpty = false := by
      rw [Bool.eq_false_iff]
      intro hcon
      exact hlen (List.range_eq_nil.mp (List.isEmpty_iff.mp hcon))
    simp only [hrne, Bool.not_false, Bool.and_true, if_true]
    rw [emitItems, chosenIdx_range, map_getD_range]
    simp only [stripWS_append]
    rw [joinSep_stripWS (by decide) b.items, joinGaps_stripWS b.items g hg]
  · rw [if_neg hhi, if_neg hhi]
    rfl

theorem docBody_stripWS (blocks : LatexBlocks)
    (hitems : ∀ e ∈ blocks.sections, e.2.has_items = true → e.2.items ≠ []) :
    ∀ (infos : List SectionInfo) (sg : Nat → Str) (ig : Nat → Nat → Str),
      (∀ n, wsOnly (sg n) = true) → (∀ n m, wsOnly (ig n m) = true) →
      stripWS (docBody blocks infos sg ig)
        = ((infos.map (emitSection blocks (allSelectedOf blocks.sections))).map stripWS).flatten := by
  intro infos
  induction infos with
  | nil =>
    intro sg ig hsg hig
    simp [docBody, stripWS_of_wsOnly (hsg 0)]
  | cons info rest ih =>
    intro sg ig hsg hig
    rw [show docBody blocks (info :: rest) sg ig
        = sg 0
            ++ (match lookupKey (normalizedTitle info.title) blocks.sections with
                | some b => sectionFullG b (ig 0)
                | none => [])
            ++ docBody blocks rest (fun n => sg (n + 1)) (fun n => ig (n + 1)) from rfl,
      stripWS_append, stripWS_append, stripWS_of_wsOnly (hsg 0),
      ih (fun n => sg (n + 1)) (fun n => ig (n + 1)) (fun n => hsg (n + 1)) (fun n => hig (n + 1))]
    simp only [List.map_cons, List.flatten_cons, List.nil_append]
    congr 1
    rcases hbl : lookupKey (normalizedTitle info.title) blocks.sections with _ | b
    · simp [emitSection, hbl]
    · exact (emitSection_allSelected blocks info b hbl (hitems _ (lookupKey_mem hbl))
        (ig 0) (fun n => hig 0 n)).symm

/-- C1: assembling a faithfully decomposed `ParsedData` with the
all-selected selections map reproduces `original_latex` content-equivalently:
the whitespace-stripped output equals the whitespace-stripped original, so
section and item texts appear identically and in the same relative order,
differing at most in whitespace at block joins. -/
theorem assemble_allSelected_roundTrip (p : ParsedData)
    (sg : Nat → Str) (ig : Nat → Nat → Str)
    (hsg : ∀ n, wsOnly (sg n) = true) (hig : ∀ n m, wsOnly (ig n m) = true)
    (hitems : ∀ e ∈ p.latex_blocks.sections, e.2.has_items = true → e.2.items ≠ [])
    (horig : p.original_latex
       = p.latex_blocks.preamble ++ docBody p.latex_blocks p.section_info sg ig
           ++ p.latex_blocks.closing) :
    stripWS (assemble p (allSelected p)) = stripWS p.original_latex := by
  rw [horig, assemble, allSelected]
  rw [stripWS_append, stripWS_append, stripWS_append, stripWS_append, stripWS_join,
    docBody_stripWS p.latex_blocks hitems p.section_info sg ig hsg hig]

theorem assemble_allSelected_roundTrip_witness :
    stripWS (assemble pW (allSelected pW)) = stripWS pW.original_latex :=
  assemble_allSelected_roundTrip pW sgW igW (fun _ => rfl) (fun _ _ => rfl)
    (by decide) rfl
